import Mathlib

/-!
# Verification of two Parallel Research Kernels benchmarks

Shallow embedding of `src/Cxx11/transpose-ranges.cc` (matrix transpose,
C++11 ranges) and `src/Cxx11/stencil-vector-tbb.cc` (2-D stencil, TBB)
from the TaihuLight/Kernels repository, together with proofs of the
behavioural claims about configuration handling, the compute loops and
the verification passes.

Doubles are modelled as rationals (exact real arithmetic); machine `int`
values are modelled as `ℤ` (no overflow occurs for accepted
configurations, whose orders are bounded by `⌊√INT_MAX⌋`).  The arrays
`A` and `B` are modelled as total functions from (flat or 2-D) indices
to `ℚ`; every access performed by either program stays inside the
allocated `order²` range, so the functional model agrees with the array
on every cell the programs touch.  The TBB `parallel_for` passes write
disjoint cells, so they are embedded as whole-domain functional updates;
the ranges-library loops are embedded as left folds over the exact
visit lists the views produce.
-/

/-! ## Transpose program: state and compute loop

`transpose-ranges.cc` lines 112-175.  The state carries the two flat
`order*order` arrays.  `A` is filled by `std::iota` with `0,1,2,…` and
`B` with zeros (lines 114-118).
-/

/-- The two flat arrays of the transpose program, as total functions on
flat indices.  Only indices below `order*order` are ever accessed. -/
structure TState where
  A : Nat → ℚ
  B : Nat → ℚ

/-- Initial transpose state: `A[k] = k` (`std::iota`, line 118) and
`B = 0` (line 115). -/
def transposeInit : TState :=
  { A := fun k => (k : ℚ), B := fun _ => 0 }

/-- One loop-body visit of the pair `(i, j)` (lines 155-156 / 170-171):
`B[i*order+j] += A[j*order+i]; A[j*order+i] += 1.0`. -/
def visit (order : Nat) (st : TState) (p : Nat × Nat) : TState :=
  { B := fun k => if k = p.1 * order + p.2 then st.B k + st.A (p.2 * order + p.1) else st.B k
    A := fun k => if k = p.2 * order + p.1 then st.A k + 1 else st.A k }

/-- Run the loop body over a list of index pairs, in order. -/
def runPairs (order : Nat) (L : List (Nat × Nat)) (st : TState) : TState :=
  L.foldl (visit order) st

/-- The untiled visit order: `cartesian_product(iota(0,order), iota(0,order))`
(lines 121-124), row major. -/
def pairsU (order : Nat) : List (Nat × Nat) :=
  (List.range order) ×ˢ (List.range order)

/-- `stride_view(iota(0,order), tile)`: every `tile`-th element of
`[0, order)` (lines 128-129). -/
def stridedL (order tile : Nat) : List Nat :=
  (List.range order).filter (fun x => x % tile == 0)

/-- The tiled visit order (lines 151-158): outer loop over the strided
product `s`, inner loop over the `tile × tile` product `t`, visiting
the pair `(it+i, jt+j)`. -/
def pairsT (order tile : Nat) : List (Nat × Nat) :=
  ((stridedL order tile) ×ˢ (stridedL order tile)).flatMap (fun itjt =>
    ((List.range tile) ×ˢ (List.range tile)).map (fun ij =>
      (itjt.1 + ij.1, itjt.2 + ij.2)))

/-- One iteration of the transpose loop (lines 140-174): the tiled
branch runs when `tile_size < order`, the untiled branch otherwise. -/
def transposePass (order tile : Nat) (st : TState) : TState :=
  if tile < order then runPairs order (pairsT order tile) st
  else runPairs order (pairsU order) st

/-- State after `m` iterations of the transpose loop; the program runs
`iterations + 1` of them (line 136). -/
def transposeState (order tile : Nat) : Nat → TState
  | 0 => transposeInit
  | m + 1 => transposePass order tile (transposeState order tile m)

/-! ## Transpose program: configuration and verification -/

/-- Resolved transpose configuration (lines 70-72). -/
structure TConfig where
  iterations : ℤ
  order : ℤ
  tile : ℤ
deriving DecidableEq

/-- Modelled from the spec: `prk::get_max_matrix_size()` lives in
`prk_util.h`, which is not under `src/`; the spec describes the bound
as "order bounded so order² fits address space without overflow", and
the corresponding in-`src` check of the stencil program uses
`⌊√INT_MAX⌋ = 46340`. -/
def maxMatrixSize : ℤ := 46340

/-- Argument validation of the transpose program (lines 73-102),
taking the `atoi`-parsed integers; `tileArg = none` models `argc ≤ 3`.
Returns the resolved configuration or the thrown error string. -/
def transposeConfig (iterations order : ℤ) (tileArg : Option ℤ) : Except String TConfig :=
  if iterations < 1 then .error "ERROR: iterations must be >= 1"
  else if order ≤ 0 then .error "ERROR: Matrix Order must be greater than 0"
  else if maxMatrixSize < order then .error "ERROR: matrix dimension too large - overflow risk"
  else
    let t0 := tileArg.getD order
    let tile := if t0 ≤ 0 then order else t0
    if tile < order ∧ order % tile ≠ 0 then .error "ERROR: tile size must evenly divide order"
    else .ok ⟨iterations, order, tile⟩

/-- The validation threshold `epsilon = 1.0e-8` of both programs. -/
def epsQ : ℚ := 1 / 100000000

/-- The verifier's reference value for the cell pair `(i,j)` (lines
183-191): `(i*order+j)·(1+iterations) + (iterations+1)·(iterations/2)`. -/
def transposeRef (iterations order : Nat) (i j : Nat) : ℚ :=
  ((i * order + j : Nat) : ℚ) * (1 + (iterations : ℚ)) +
    ((iterations : ℚ) + 1) * ((iterations : ℚ) / 2)

/-- The verifier's aggregate absolute error (lines 184-194):
`Σᵢⱼ |B[j*order+i] − reference(i,j)|`. -/
def abserrQ (iterations order : Nat) (B : Nat → ℚ) : ℚ :=
  ∑ i ∈ Finset.range order, ∑ j ∈ Finset.range order,
    |B (j * order + i) - transposeRef iterations order i j|

/-- Compute-and-verify part of transpose `main` (lines 112-213):
returns `(exit code, printed "Solution validates", final state)`. -/
def transposeRun (iterations order tile : Nat) : Nat × Bool × TState :=
  let st := transposeState order tile (iterations + 1)
  if abserrQ iterations order st.B < epsQ then (0, true, st) else (1, false, st)

/-- Whole transpose `main`: configuration, then compute and verify.  A
configuration error prints the message and returns 1 before the arrays
exist (`none` in the last component). -/
def transposeMain (iterations order : ℤ) (tileArg : Option ℤ) : Nat × Bool × Option TState :=
  match transposeConfig iterations order tileArg with
  | .error _ => (1, false, none)
  | .ok cfg =>
      let r := transposeRun cfg.iterations.toNat cfg.order.toNat cfg.tile.toNat
      (r.1, r.2.1, some r.2.2)

/-! ## Stencil program: state and compute loop

`stencil-vector-tbb.cc`.  The grid is `n × n`, flat index `i*n+j`; we
model the two arrays as functions of the 2-D coordinates, which is
faithful because every read and write of the program happens at a flat
index `x*n+y` with `0 ≤ x, y < n`.  Indices are `ℤ` (C `int`s).
-/

/-- The two `n*n` arrays of the stencil program as 2-D functions. -/
structure SState where
  A : ℤ → ℤ → ℚ
  B : ℤ → ℤ → ℚ

/-- `ParallelInitialize` (lines 76-95, 116-121): `A[i*n+j] = i+j`,
`B[i*n+j] = 0` over the full `n × n` domain. -/
def sInit (n : ℤ) : SState :=
  { A := fun i j => if 0 ≤ i ∧ i < n ∧ 0 ≤ j ∧ j < n then ((i + j : ℤ) : ℚ) else 0
    B := fun _ _ => 0 }

/-- Modelled from the spec: the `Star<radius>` operator body lives in
`stencil_tbb.hpp`, which is not under `src/`.  Per spec §3/§4.2 the
star stencil reads the `4·radius+1` cells on the two axes with
antisymmetric weights `±1/(2·k·radius)` at axis offset `±k`, the
normalisation under which the stencil maps the plane `A(i,j)=i+j+c`
to the constant `2`. -/
def starSum (r : ℤ) (A : ℤ → ℤ → ℚ) (i j : ℤ) : ℚ :=
  ∑ k ∈ Finset.Icc (1 : ℤ) r,
    (1 / (2 * (k : ℚ) * (r : ℚ))) *
      (A (i + k) j - A (i - k) j + A i (j + k) - A i (j - k))

/-- Modelled from the spec: the `Grid<radius>` operator body lives in
`stencil_tbb.hpp`, which is not under `src/`.  Per spec §3/§4.2 the
grid stencil reads all `(2·radius+1)²` cells of the bounding box with
antisymmetric weights: ring `m` has edge weight `±1/(4·m·(2m−1)·radius)`
and corner weight `±1/(4·m·radius)`, the normalisation under which the
stencil maps the plane `A(i,j)=i+j+c` to the constant `2`. -/
def gridSum (r : ℤ) (A : ℤ → ℤ → ℚ) (i j : ℤ) : ℚ :=
  ∑ m ∈ Finset.Icc (1 : ℤ) r,
    ((∑ t ∈ Finset.Icc (-(m - 1)) (m - 1),
        (1 / (4 * (m : ℚ) * (2 * (m : ℚ) - 1) * (r : ℚ))) *
          (A (i + t) (j + m) - A (i + t) (j - m) +
           A (i + m) (j + t) - A (i - m) (j + t))) +
      (1 / (4 * (m : ℚ) * (r : ℚ))) * (A (i + m) (j + m) - A (i - m) (j - m)))

/-- `ParallelStar<r>` (lines 130-136): add the star stencil sum to `B`
on the interior `[r, n-r) × [r, n-r)`; `A` is read only. -/
def applyStar (n r : ℤ) (s : SState) : SState :=
  { A := s.A
    B := fun i j =>
      if r ≤ i ∧ i < n - r ∧ r ≤ j ∧ j < n - r then s.B i j + starSum r s.A i j
      else s.B i j }

/-- `ParallelGrid<r>` (lines 138-144): add the grid stencil sum to `B`
on the interior; `A` is read only. -/
def applyGrid (n r : ℤ) (s : SState) : SState :=
  { A := s.A
    B := fun i j =>
      if r ≤ i ∧ i < n - r ∧ r ≤ j ∧ j < n - r then s.B i j + gridSum r s.A i j
      else s.B i j }

/-- `ParallelAdd` (lines 97-114, 123-128): `A[i*n+j] += 1.0` over the
full `n × n` domain; `B` untouched. -/
def addPass (n : ℤ) (s : SState) : SState :=
  { A := fun i j => if 0 ≤ i ∧ i < n ∧ 0 ≤ j ∧ j < n then s.A i j + 1 else s.A i j
    B := s.B }

/-- One iteration of the stencil loop body (lines 233-261): the
`switch (radius)` applies the stencil for `radius ∈ {1..9}` and falls
through to a warning-only default otherwise (no write at all); then
`ParallelAdd` always runs. -/
def stencilStep (n r : ℤ) (star : Bool) (s : SState) : SState :=
  addPass n
    (if 1 ≤ r ∧ r ≤ 9 then (if star then applyStar n r s else applyGrid n r s) else s)

/-- State after `t` iterations of the stencil loop; the program runs
`iterations + 1` of them (line 229), after `ParallelInitialize`. -/
def stencilState (n r : ℤ) (star : Bool) : Nat → SState
  | 0 => sInit n
  | t + 1 => stencilStep n r star (stencilState n r star t)

/-! ## Stencil program: configuration and verification -/

/-- Resolved stencil configuration (lines 155-157). -/
structure SConfig where
  iterations : ℤ
  n : ℤ
  tile : ℤ
  star : Bool
  radius : ℤ
deriving DecidableEq

/-- Tile-size resolution of the stencil program (lines 177-182): the
default is `32`; a supplied value outside `[1, n]` is replaced by `n`. -/
def stencilTile (n : ℤ) : Option ℤ → ℤ
  | none => 32
  | some t => if t < 1 ∨ n < t then n else t

/-- Shape-token resolution of the stencil program (lines 184-189):
`star` unless the token equals `"grid"` exactly. -/
def stencilStar : Option String → Bool
  | none => true
  | some s => if s = "grid" then false else true

/-- Argument validation of the stencil program (lines 158-204), taking
the `atoi`-parsed integers; `none` models an absent optional argument.
`⌊√INT_MAX⌋ = 46340` is the overflow bound of line 173. -/
def stencilConfig (iterations n : ℤ) (tileArg : Option ℤ) (shapeArg : Option String)
    (radiusArg : Option ℤ) : Except String SConfig :=
  if iterations < 1 then .error "ERROR: iterations must be >= 1"
  else if n < 1 then .error "ERROR: grid dimension must be positive"
  else if (46340 : ℤ) < n then .error "ERROR: grid dimension too large - overflow risk"
  else
    let tile := stencilTile n tileArg
    let star := stencilStar shapeArg
    let radius := radiusArg.getD 2
    if radius < 1 ∨ n < 2 * radius + 1 then
      .error "ERROR: Stencil radius negative or too large"
    else .ok ⟨iterations, n, tile, star, radius⟩

/-- The verifier's normalised L1 norm (lines 270-279): sum of `|B|`
over the interior, divided by `(n-2r)²`. -/
def normQ (n r : ℤ) (B : ℤ → ℤ → ℚ) : ℚ :=
  (∑ i ∈ Finset.Ico r (n - r), ∑ j ∈ Finset.Ico r (n - r), |B i j|) /
    (((n - 2 * r) * (n - 2 * r) : ℤ) : ℚ)

/-- Compute-and-verify part of stencil `main` (lines 220-299): returns
`(exit code, printed "Solution validates", final state)`.  The check is
`fabs(norm - 2·(iterations+1)) > epsilon → ERROR exit 1`. -/
def stencilRun (cfg : SConfig) : Nat × Bool × SState :=
  let fin := stencilState cfg.n cfg.radius cfg.star (cfg.iterations.toNat + 1)
  let norm := normQ cfg.n cfg.radius fin.B
  if epsQ < |norm - 2 * ((cfg.iterations : ℚ) + 1)| then (1, false, fin) else (0, true, fin)

/-- Whole stencil `main`: configuration, then compute and verify.  A
configuration error prints the message and returns 1 before the arrays
are allocated (`none` in the last component). -/
def stencilMain (iterations n : ℤ) (tileArg : Option ℤ) (shapeArg : Option String)
    (radiusArg : Option ℤ) : Nat × Bool × Option SState :=
  match stencilConfig iterations n tileArg shapeArg radiusArg with
  | .error _ => (1, false, none)
  | .ok cfg =>
      let r := stencilRun cfg
      (r.1, r.2.1, some r.2.2)

/-! ## Flat-index arithmetic -/

/-- Row-major flat indices are injective below the order. -/
theorem idx_inj {order i j i' j' : Nat} (hj : j < order) (hj' : j' < order)
    (h : i * order + j = i' * order + j') : i = i' ∧ j = j' := by
  have h0 : 0 < order := by omega
  have e1 : (i * order + j) / order = i := by
    rw [Nat.mul_comm i order, Nat.mul_add_div h0, Nat.div_eq_of_lt hj, Nat.add_zero]
  have e2 : (i' * order + j') / order = i' := by
    rw [Nat.mul_comm i' order, Nat.mul_add_div h0, Nat.div_eq_of_lt hj', Nat.add_zero]
  have hi : i = i' := by rw [← e1, ← e2, h]
  subst hi
  exact ⟨rfl, Nat.add_left_cancel h⟩

/-! ## Effect of one loop pass over a visit list

Each visit of the pair `(i, j)` touches only `B[i*order+j]` and
`A[j*order+i]`; over a list that visits every pair below the order
exactly once, the pass adds `1` to every `A` cell and the pre-pass
value `A[j*order+i]` to `B[i*order+j]`.
-/

theorem runPairs_nil (order : Nat) (st : TState) : runPairs order [] st = st := rfl

theorem runPairs_cons (order : Nat) (p : Nat × Nat) (L : List (Nat × Nat)) (st : TState) :
    runPairs order (p :: L) st = runPairs order L (visit order st p) := rfl

/-- `A[k]` is incremented once per visit whose pair `(i,j)` has
`j*order+i = k`. -/
theorem runPairs_A_count (order : Nat) (L : List (Nat × Nat)) (st : TState) (k : Nat) :
    (runPairs order L st).A k =
      st.A k + ((L.countP (fun p => p.2 * order + p.1 == k) : Nat) : ℚ) := by
  induction L generalizing st with
  | nil => simp [runPairs]
  | cons p L ih =>
    rw [runPairs_cons, ih, List.countP_cons]
    by_cases h : p.2 * order + p.1 = k
    · simp only [visit, h, if_pos rfl, beq_iff_eq, if_pos trivial]
      push_cast
      ring
    · have : ¬(k = p.2 * order + p.1) := fun he => h he.symm
      simp only [visit, beq_iff_eq, if_neg this, if_neg h, Nat.add_zero]

/-- A pass leaves `B[k]` alone when no visited pair maps to it. -/
theorem runPairs_B_not_hit (order : Nat) (L : List (Nat × Nat)) (st : TState) (k : Nat)
    (h : ∀ p ∈ L, p.1 * order + p.2 ≠ k) : (runPairs order L st).B k = st.B k := by
  induction L generalizing st with
  | nil => rfl
  | cons p L ih =>
    rw [runPairs_cons, ih _ (fun q hq => h q (List.mem_cons_of_mem _ hq))]
    have hp : ¬(k = p.1 * order + p.2) := fun he => h p (List.mem_cons_self p L) he.symm
    simp [visit, hp]

/-- `B[i*order+j]` receives exactly the pre-pass value `A[j*order+i]`
when the pair `(i, j)` is visited exactly once and every visited pair
is inside the order. -/
theorem runPairs_B_once (order : Nat) (L : List (Nat × Nat)) (st : TState) (i j : Nat)
    (hi : i < order) (hj : j < order)
    (hb : ∀ p ∈ L, p.1 < order ∧ p.2 < order)
    (hc : L.count (i, j) = 1) :
    (runPairs order L st).B (i * order + j) = st.B (i * order + j) + st.A (j * order + i) := by
  induction L generalizing st with
  | nil => simp at hc
  | cons p L ih =>
    rw [runPairs_cons]
    by_cases hp : p = (i, j)
    · subst hp
      have hc0 : L.count (i, j) = 0 := by
        rw [List.count_cons_self] at hc
        omega
      have hnot : ∀ q ∈ L, q.1 * order + q.2 ≠ i * order + j := by
        intro q hq hqe
        obtain ⟨hq1, hq2⟩ := hb q (List.mem_cons_of_mem _ hq)
        obtain ⟨e1, e2⟩ := idx_inj hq2 hj hqe
        rw [List.count_eq_zero] at hc0
        have hq' : q = (i, j) := by
          cases q
          simp_all
        exact hc0 (hq' ▸ hq)
      rw [runPairs_B_not_hit order L _ _ hnot]
      simp [visit]
    · have hpb := hb p (List.mem_cons_self p L)
      have hBne : ¬(i * order + j = p.1 * order + p.2) := by
        intro he
        obtain ⟨e1, e2⟩ := idx_inj hj hpb.2 he
        exact hp (by simp [Prod.ext_iff, e1.symm, e2.symm])
      have hAne : ¬(j * order + i = p.2 * order + p.1) := by
        intro he
        obtain ⟨e1, e2⟩ := idx_inj hi hpb.1 he
        exact hp (by simp [Prod.ext_iff, e1.symm, e2.symm])
      have hcL : L.count (i, j) = 1 := by
        rwa [List.count_cons_of_ne (fun he => hp he.symm)] at hc
      have := ih (visit order st p) (fun q hq => hb q (List.mem_cons_of_mem _ hq)) hcL
      rw [this]
      simp [visit, hBne, hAne]

/-- Under the bounds, the `A`-increment count for cell `j*order+i` is
the visit count of the pair `(i, j)`. -/
theorem countP_aidx_eq_count (order : Nat) (L : List (Nat × Nat)) (i j : Nat)
    (hi : i < order) (_hj : j < order)
    (hb : ∀ p ∈ L, p.1 < order ∧ p.2 < order) :
    L.countP (fun p => p.2 * order + p.1 == j * order + i) = L.count (i, j) := by
  induction L with
  | nil => rfl
  | cons p L ih =>
    rw [List.countP_cons, List.count_cons, ih (fun q hq => hb q (List.mem_cons_of_mem _ hq))]
    congr 1
    obtain ⟨h1, h2⟩ := hb p (List.mem_cons_self p L)
    by_cases hp : p = (i, j)
    · subst hp; simp
    · have hne : ¬(p.2 * order + p.1 = j * order + i) := by
        intro he
        obtain ⟨e1, e2⟩ := idx_inj h1 hi he
        exact hp (by simp [Prod.ext_iff, e1, e2])
      simp [hne, hp]

/-! ## The two visit lists enumerate every pair exactly once -/

theorem pairsU_mem (order : Nat) (p : Nat × Nat) :
    p ∈ pairsU order ↔ p.1 < order ∧ p.2 < order := by
  obtain ⟨a, b⟩ := p
  simp [pairsU, List.mem_product]

theorem pairsU_nodup (order : Nat) : (pairsU order).Nodup :=
  List.Nodup.product (List.nodup_range _) (List.nodup_range _)

/-- An element of a duplicate-free list is counted exactly once. -/
theorem count_one_of_nodup_mem {α : Type} [BEq α] [LawfulBEq α] {l : List α} {a : α}
    (hd : l.Nodup) (ha : a ∈ l) : l.count a = 1 := by
  induction l with
  | nil => simp at ha
  | cons b l ih =>
    rw [List.count_cons]
    rcases List.mem_cons.1 ha with h | h
    · subst h
      have hnotin : a ∉ l := (List.nodup_cons.1 hd).1
      simp [List.count_eq_zero.2 hnotin]
    · have hne : a ≠ b := by
        rintro rfl
        exact (List.nodup_cons.1 hd).1 h
      rw [ih (List.nodup_cons.1 hd).2 h]
      simp [hne, Ne.symm hne]

theorem pairsU_count (order i j : Nat) (hi : i < order) (hj : j < order) :
    (pairsU order).count (i, j) = 1 :=
  count_one_of_nodup_mem (pairsU_nodup order) ((pairsU_mem order (i, j)).2 ⟨hi, hj⟩)

theorem stridedL_mem (order tile x : Nat) :
    x ∈ stridedL order tile ↔ x < order ∧ x % tile = 0 := by
  simp [stridedL, List.mem_filter, List.mem_range]

theorem stridedL_nodup (order tile : Nat) : (stridedL order tile).Nodup :=
  List.Nodup.filter _ (List.nodup_range _)

/-- A tile-start plus an in-tile offset stays below the order when the
tile size divides the order. -/
theorem tile_add_lt (order tile it i : Nat) (hdvd : tile ∣ order)
    (hit : it < order) (hmod : it % tile = 0) (hi : i < tile) : it + i < order := by
  obtain ⟨d, hd⟩ := hdvd
  obtain ⟨q, hq⟩ := Nat.dvd_of_mod_eq_zero hmod
  subst hd hq
  have hqd : q < d := by
    rcases Nat.lt_or_ge q d with h | h
    · exact h
    · exact absurd hit (Nat.not_lt.2 (Nat.mul_le_mul_left tile h))
  calc tile * q + i < tile * q + tile := by omega
    _ = tile * (q + 1) := by ring
    _ ≤ tile * d := Nat.mul_le_mul_left tile hqd

/-- The tile start reached by a coordinate is unique: if
`x = it + i` with `it ≡ 0 [MOD tile]` and `i < tile`, then
`it = tile * (x / tile)` and `i = x % tile`. -/
theorem tile_decomp_unique (tile it i : Nat) (ht : 0 < tile)
    (hmod : it % tile = 0) (hi : i < tile) :
    it = tile * ((it + i) / tile) ∧ i = (it + i) % tile := by
  obtain ⟨q, hq⟩ := Nat.dvd_of_mod_eq_zero hmod
  subst hq
  constructor
  · rw [Nat.mul_add_div ht, Nat.div_eq_of_lt hi, Nat.add_zero]
  · rw [Nat.mul_add_mod, Nat.mod_eq_of_lt hi]

theorem pairsT_mem (order tile : Nat) (ht : 0 < tile) (hdvd : tile ∣ order) (p : Nat × Nat) :
    p ∈ pairsT order tile ↔ p.1 < order ∧ p.2 < order := by
  obtain ⟨a, b⟩ := p
  simp only [pairsT, List.mem_flatMap, List.mem_map, List.mem_product, stridedL_mem,
    List.mem_range, Prod.exists, Prod.mk.injEq]
  constructor
  · rintro ⟨it, jt, ⟨⟨hit, hitm⟩, hjt, hjtm⟩, i, j, ⟨hi, hj⟩, he1, he2⟩
    subst he1 he2
    exact ⟨tile_add_lt order tile it i hdvd hit hitm hi,
           tile_add_lt order tile jt j hdvd hjt hjtm hj⟩
  · rintro ⟨ha, hb⟩
    refine ⟨tile * (a / tile), tile * (b / tile),
      ⟨⟨?_, Nat.mul_mod_right tile _⟩, ?_, Nat.mul_mod_right tile _⟩,
      a % tile, b % tile, ⟨Nat.mod_lt _ ht, Nat.mod_lt _ ht⟩,
      Nat.div_add_mod a tile, Nat.div_add_mod b tile⟩
    · exact Nat.lt_of_le_of_lt (by rw [Nat.mul_comm]; exact Nat.div_mul_le_self a tile) ha
    · exact Nat.lt_of_le_of_lt (by rw [Nat.mul_comm]; exact Nat.div_mul_le_self b tile) hb

theorem pairsT_nodup (order tile : Nat) (ht : 0 < tile) : (pairsT order tile).Nodup := by
  unfold pairsT
  rw [List.nodup_flatMap]
  refine ⟨?_, ?_⟩
  · intro x _
    refine List.Nodup.map ?_ (List.Nodup.product (List.nodup_range _) (List.nodup_range _))
    intro p q he
    simp only [Prod.mk.injEq] at he
    exact Prod.ext_iff.2 ⟨by omega, by omega⟩
  · have hnd : ((stridedL order tile) ×ˢ (stridedL order tile)).Nodup :=
      List.Nodup.product (stridedL_nodup _ _) (stridedL_nodup _ _)
    refine List.Pairwise.imp_of_mem ?_ hnd
    intro x y hx hy hne
    intro pr hpx hpy
    obtain ⟨a, b⟩ := pr
    obtain ⟨x1, x2⟩ := x
    obtain ⟨y1, y2⟩ := y
    rw [List.mem_product] at hx hy
    obtain ⟨hx1, hx2⟩ := hx
    obtain ⟨hy1, hy2⟩ := hy
    rw [stridedL_mem] at hx1 hx2 hy1 hy2
    simp only [List.mem_map, List.mem_product, List.mem_range, Prod.exists,
      Prod.mk.injEq] at hpx hpy
    obtain ⟨i, j, ⟨hi, hj⟩, he1, he2⟩ := hpx
    obtain ⟨i', j', ⟨hi', hj'⟩, he1', he2'⟩ := hpy
    have hx1e := (tile_decomp_unique tile x1 i ht hx1.2 hi).1
    have hy1e := (tile_decomp_unique tile y1 i' ht hy1.2 hi').1
    have hx2e := (tile_decomp_unique tile x2 j ht hx2.2 hj).1
    have hy2e := (tile_decomp_unique tile y2 j' ht hy2.2 hj').1
    apply hne
    rw [he1] at hx1e
    rw [he2] at hx2e
    rw [he1'] at hy1e
    rw [he2'] at hy2e
    rw [Prod.mk.injEq]
    omega

theorem pairsT_count (order tile i j : Nat) (ht : 0 < tile) (hdvd : tile ∣ order)
    (hi : i < order) (hj : j < order) : (pairsT order tile).count (i, j) = 1 :=
  count_one_of_nodup_mem (pairsT_nodup order tile ht)
    ((pairsT_mem order tile ht hdvd (i, j)).2 ⟨hi, hj⟩)

/-! ## Closed form of the transpose compute loop

Whichever branch runs, one pass adds `1` to `A[j*order+i]` and the
pre-pass value `A[j*order+i]` to `B[i*order+j]`, for every pair below
the order.  The hypothesis `tile < order → 0 < tile ∧ tile ∣ order` is
exactly what the configuration validator guarantees for the resolved
tile size.
-/

theorem transposePass_A (order tile : Nat) (st : TState) (i j : Nat)
    (hi : i < order) (hj : j < order) (htile : tile < order → 0 < tile ∧ tile ∣ order) :
    (transposePass order tile st).A (j * order + i) = st.A (j * order + i) + 1 := by
  unfold transposePass
  by_cases h : tile < order
  · rw [if_pos h]
    obtain ⟨ht, hdvd⟩ := htile h
    rw [runPairs_A_count, countP_aidx_eq_count order _ i j hi hj
        (fun p hp => (pairsT_mem order tile ht hdvd p).1 hp),
      pairsT_count order tile i j ht hdvd hi hj]
    norm_num
  · rw [if_neg h]
    rw [runPairs_A_count, countP_aidx_eq_count order _ i j hi hj
        (fun p hp => (pairsU_mem order p).1 hp),
      pairsU_count order i j hi hj]
    norm_num

theorem transposePass_B (order tile : Nat) (st : TState) (i j : Nat)
    (hi : i < order) (hj : j < order) (htile : tile < order → 0 < tile ∧ tile ∣ order) :
    (transposePass order tile st).B (i * order + j) =
      st.B (i * order + j) + st.A (j * order + i) := by
  unfold transposePass
  by_cases h : tile < order
  · rw [if_pos h]
    obtain ⟨ht, hdvd⟩ := htile h
    exact runPairs_B_once order _ st i j hi hj
      (fun p hp => (pairsT_mem order tile ht hdvd p).1 hp)
      (pairsT_count order tile i j ht hdvd hi hj)
  · rw [if_neg h]
    exact runPairs_B_once order _ st i j hi hj
      (fun p hp => (pairsU_mem order p).1 hp)
      (pairsU_count order i j hi hj)

/-- After `m` passes, `A[j*order+i] = (j*order+i) + m`. -/
theorem transposeState_A (order tile : Nat) (htile : tile < order → 0 < tile ∧ tile ∣ order)
    (m i j : Nat) (hi : i < order) (hj : j < order) :
    (transposeState order tile m).A (j * order + i) = ((j * order + i : Nat) : ℚ) + m := by
  induction m with
  | zero => simp [transposeState, transposeInit]
  | succ m ih =>
    show (transposePass order tile _).A _ = _
    rw [transposePass_A order tile _ i j hi hj htile, ih]
    push_cast
    ring

/-- After `m` passes, `B[i*order+j] = m·(j*order+i) + m·(m−1)/2`. -/
theorem transposeState_B (order tile : Nat) (htile : tile < order → 0 < tile ∧ tile ∣ order)
    (m i j : Nat) (hi : i < order) (hj : j < order) :
    (transposeState order tile m).B (i * order + j) =
      (m : ℚ) * ((j * order + i : Nat) : ℚ) + (m : ℚ) * ((m : ℚ) - 1) / 2 := by
  induction m with
  | zero => simp [transposeState, transposeInit]
  | succ m ih =>
    show (transposePass order tile _).B _ = _
    rw [transposePass_B order tile _ i j hi hj htile, ih,
      transposeState_A order tile htile m i j hi hj]
    push_cast
    ring

/-- Every flat index below `order*order` decomposes as `j*order+i`. -/
theorem flat_decomp (order k : Nat) (h : k < order * order) :
    ∃ i j, i < order ∧ j < order ∧ k = j * order + i := by
  have h0 : 0 < order := by
    rcases Nat.eq_zero_or_pos order with h' | h'
    · subst h'; omega
    · exact h'
  refine ⟨k % order, k / order, Nat.mod_lt _ h0, ?_, ?_⟩
  · exact (Nat.div_lt_iff_lt_mul h0).2 h
  · conv_lhs => rw [← Nat.div_add_mod k order]
    ring

/-! ## Transpose verifier facts -/

/-- The final `B` holds exactly the verifier's reference value. -/
theorem transposeFinal_B_eq_ref (iterations order tile : Nat)
    (htile : tile < order → 0 < tile ∧ tile ∣ order)
    (i j : Nat) (hi : i < order) (hj : j < order) :
    (transposeState order tile (iterations + 1)).B (j * order + i) =
      transposeRef iterations order i j := by
  rw [transposeState_B order tile htile (iterations + 1) j i hj hi]
  unfold transposeRef
  push_cast
  ring

/-- The verifier's aggregate absolute error is exactly zero. -/
theorem transpose_abserr_zero (iterations order tile : Nat)
    (htile : tile < order → 0 < tile ∧ tile ∣ order) :
    abserrQ iterations order (transposeState order tile (iterations + 1)).B = 0 := by
  unfold abserrQ
  apply Finset.sum_eq_zero
  intro i hi
  apply Finset.sum_eq_zero
  intro j hj
  rw [transposeFinal_B_eq_ref iterations order tile htile i j
    (Finset.mem_range.1 hi) (Finset.mem_range.1 hj)]
  simp

/-- The transpose validator accepts any positive tile size that is
either at least the order or divides it. -/
theorem transposeConfig_ok (iterations order tile : ℤ)
    (hit : 1 ≤ iterations) (hord : 1 ≤ order) (hmax : order ≤ maxMatrixSize)
    (ht1 : 1 ≤ tile) (hdz : tile < order → tile ∣ order) :
    transposeConfig iterations order (some tile) = .ok ⟨iterations, order, tile⟩ := by
  have hmod : ¬(tile < order ∧ order % tile ≠ 0) := by
    rintro ⟨hlt, hm⟩
    exact hm (Int.emod_eq_zero_of_dvd (hdz hlt))
  unfold transposeConfig
  rw [if_neg (by omega), if_neg (by omega), if_neg (by omega)]
  simp only [Option.getD_some]
  rw [if_neg (show ¬tile ≤ 0 by omega)]
  rw [if_neg hmod]

/-! ## Claim theorems for the transpose program -/

/-- C1: for every valid transpose configuration (`iterations ≥ 1`,
`order ≥ 1` within the overflow bound, `tile_size` equal to the order
or a positive divisor of it), after the loop runs `iterations+1` times
every cell satisfies `B[j*order+i] = (i*order+j)·(1+iterations) +
(iterations+1)·iterations/2` (hence within `1e-8`), the summed
absolute deviation is below `1e-8`, and the program prints
"Solution validates" and returns 0. -/
theorem transpose_solution_validates (iterations order tile : Nat)
    (hit : 1 ≤ iterations) (hord : 1 ≤ order) (hmax : (order : ℤ) ≤ maxMatrixSize)
    (htile : tile = order ∨ (0 < tile ∧ tile ∣ order)) :
    (∀ i j, i < order → j < order →
      (transposeState order tile (iterations + 1)).B (j * order + i) =
        transposeRef iterations order i j ∧
      |(transposeState order tile (iterations + 1)).B (j * order + i) -
        transposeRef iterations order i j| < epsQ) ∧
    abserrQ iterations order (transposeState order tile (iterations + 1)).B < epsQ ∧
    transposeMain (iterations : ℤ) (order : ℤ) (some (tile : ℤ)) =
      (0, true, some (transposeState order tile (iterations + 1))) := by
  have htile' : tile < order → 0 < tile ∧ tile ∣ order := by
    intro h
    rcases htile with h1 | h2
    · omega
    · exact h2
  have ht1 : 1 ≤ tile := by
    rcases htile with h1 | h2
    · omega
    · omega
  have habs := transpose_abserr_zero iterations order tile htile'
  have heps : (0 : ℚ) < epsQ := by norm_num [epsQ]
  refine ⟨?_, ?_, ?_⟩
  · intro i j hi hj
    have hb := transposeFinal_B_eq_ref iterations order tile htile' i j hi hj
    refine ⟨hb, ?_⟩
    rw [hb]
    simpa using heps
  · rw [habs]
    exact heps
  · have hcfg := transposeConfig_ok (iterations : ℤ) (order : ℤ) (tile : ℤ)
      (by exact_mod_cast hit) (by exact_mod_cast hord) hmax (by exact_mod_cast ht1)
      (fun hlt => by
        have hlt' : tile < order := by exact_mod_cast hlt
        exact Int.natCast_dvd_natCast.2 (htile' hlt').2)
    unfold transposeMain
    rw [hcfg]
    simp only [Int.toNat_natCast, transposeRun]
    rw [habs]
    rw [if_pos heps]

/-- Witness for C1 at `iterations = 1`, `order = 2`, `tile = 2`. -/
theorem transpose_solution_validates_witness :
    abserrQ 1 2 (transposeState 2 2 (1 + 1)).B < epsQ ∧
    transposeMain ((1 : Nat) : ℤ) ((2 : Nat) : ℤ) (some ((2 : Nat) : ℤ)) =
      (0, true, some (transposeState 2 2 (1 + 1))) := by
  have h := transpose_solution_validates 1 2 2 (by norm_num) (by norm_num)
    (by norm_num [maxMatrixSize]) (Or.inl rfl)
  exact ⟨h.2.1, h.2.2⟩

/-- C3: for fixed iterations and order, the untiled branch
(`tile_size = order`) and the tiled branch (any positive divisor
`tile_size < order`) produce identical final `A` and `B` arrays. -/
theorem transpose_tiling_equivalent (iterations order tile : Nat)
    (ht : 0 < tile) (_hlt : tile < order) (hdvd : tile ∣ order) :
    ∀ k, k < order * order →
      (transposeState order tile (iterations + 1)).A k =
        (transposeState order order (iterations + 1)).A k ∧
      (transposeState order tile (iterations + 1)).B k =
        (transposeState order order (iterations + 1)).B k := by
  intro k hk
  obtain ⟨i, j, hi, hj, rfl⟩ := flat_decomp order k hk
  have htile1 : tile < order → 0 < tile ∧ tile ∣ order := fun _ => ⟨ht, hdvd⟩
  have htile2 : order < order → 0 < order ∧ order ∣ order := fun h => absurd h (lt_irrefl order)
  constructor
  · rw [transposeState_A order tile htile1 (iterations + 1) i j hi hj,
      transposeState_A order order htile2 (iterations + 1) i j hi hj]
  · rw [transposeState_B order tile htile1 (iterations + 1) j i hj hi,
      transposeState_B order order htile2 (iterations + 1) j i hj hi]

/-- Witness for C3 at `iterations = 1`, `order = 4`, `tile = 2`,
`k = 5`. -/
theorem transpose_tiling_equivalent_witness :
    (transposeState 4 2 (1 + 1)).A 5 = (transposeState 4 4 (1 + 1)).A 5 ∧
    (transposeState 4 2 (1 + 1)).B 5 = (transposeState 4 4 (1 + 1)).B 5 :=
  transpose_tiling_equivalent 1 4 2 (by norm_num) (by norm_num) (by norm_num) 5 (by norm_num)

/-- C9: in the tiled branch, under `1 ≤ tile_size < order` with
`order % tile_size = 0`, every flat index `(it+i)*order+(jt+j)` and
`(jt+j)*order+(it+i)` computed by the loop body lies below
`order*order` (and is a `Nat`, hence `≥ 0`), so no access to `A` or
`B` is out of bounds. -/
theorem transpose_tiled_indices_bounded (order tile : Nat)
    (ht : 0 < tile) (_hlt : tile < order) (hdvd : tile ∣ order) :
    ∀ p ∈ pairsT order tile,
      p.1 * order + p.2 < order * order ∧ p.2 * order + p.1 < order * order := by
  intro p hp
  obtain ⟨h1, h2⟩ := (pairsT_mem order tile ht hdvd p).1 hp
  constructor
  · calc p.1 * order + p.2 < p.1 * order + order := by omega
      _ = (p.1 + 1) * order := by ring
      _ ≤ order * order := Nat.mul_le_mul_right order (by omega)
  · calc p.2 * order + p.1 < p.2 * order + order := by omega
      _ = (p.2 + 1) * order := by ring
      _ ≤ order * order := Nat.mul_le_mul_right order (by omega)

/-- Witness for C9 at `order = 4`, `tile = 2`, pair `(3, 1)`. -/
theorem transpose_tiled_indices_bounded_witness :
    3 * 4 + 1 < 4 * 4 ∧ 1 * 4 + 3 < 4 * 4 :=
  transpose_tiled_indices_bounded 4 2 (by norm_num) (by norm_num) (by norm_num)
    (3, 1) (by decide)

/-- C6: a supplied tile size with `0 < tile_size < order` not dividing
the order makes configuration fail with the divisibility error and exit
code 1 before any computation; an omitted or non-positive tile size
resolves to the order and is accepted. -/
theorem transpose_tile_divisibility_rejected (iterations order t : ℤ)
    (hit : 1 ≤ iterations) (hord : 1 ≤ order) (hmax : order ≤ maxMatrixSize) :
    ((0 < t ∧ t < order ∧ order % t ≠ 0) →
      transposeConfig iterations order (some t) =
        .error "ERROR: tile size must evenly divide order" ∧
      transposeMain iterations order (some t) = (1, false, none)) ∧
    transposeConfig iterations order none = .ok ⟨iterations, order, order⟩ ∧
    (t ≤ 0 → transposeConfig iterations order (some t) = .ok ⟨iterations, order, order⟩) := by
  have hself : ¬(order < order ∧ order % order ≠ 0) := by
    rintro ⟨h, _⟩
    omega
  refine ⟨?_, ?_, ?_⟩
  · rintro ⟨ht0, htlt, hmod⟩
    have hcfg : transposeConfig iterations order (some t) =
        .error "ERROR: tile size must evenly divide order" := by
      unfold transposeConfig
      rw [if_neg (by omega), if_neg (by omega), if_neg (by omega)]
      simp only [Option.getD_some]
      rw [if_neg (show ¬t ≤ 0 by omega)]
      rw [if_pos ⟨htlt, hmod⟩]
    refine ⟨hcfg, ?_⟩
    unfold transposeMain
    rw [hcfg]
  · unfold transposeConfig
    rw [if_neg (by omega), if_neg (by omega), if_neg (by omega)]
    simp only [Option.getD_none, ite_self]
    rw [if_neg hself]
  · intro ht0
    unfold transposeConfig
    rw [if_neg (by omega), if_neg (by omega), if_neg (by omega)]
    simp only [Option.getD_some]
    rw [if_pos ht0]
    rw [if_neg hself]

/-- Witness for C6 at `iterations = 1`, `order = 4`, `tile = 3`. -/
theorem transpose_tile_divisibility_rejected_witness :
    transposeMain 1 4 (some 3) = (1, false, none) ∧
    transposeConfig 1 4 none = .ok ⟨1, 4, 4⟩ := by
  have h := transpose_tile_divisibility_rejected 1 4 3 (by norm_num) (by norm_num)
    (by norm_num [maxMatrixSize])
  exact ⟨(h.1 (by decide)).2, h.2.1⟩

/-! ## The stencils on an affine plane

Both stencils are normalised so that, applied to any array agreeing
with `A(x,y) = x + y + c` on the cells they read, they produce exactly
`2`.  This is the invariant behind the reference norm
`2·(iterations+1)`.
-/

theorem starSum_plane (r : ℤ) (hr : 1 ≤ r) (A : ℤ → ℤ → ℚ) (i j : ℤ) (c : ℚ)
    (hA : ∀ x y : ℤ, |x - i| ≤ r → |y - j| ≤ r → A x y = ((x + y : ℤ) : ℚ) + c) :
    starSum r A i j = 2 := by
  have hr0 : (r : ℚ) ≠ 0 := by
    rw [Int.cast_ne_zero]
    omega
  have hstep : ∀ k ∈ Finset.Icc (1 : ℤ) r,
      (1 / (2 * (k : ℚ) * (r : ℚ))) *
        (A (i + k) j - A (i - k) j + A i (j + k) - A i (j - k)) = 2 / (r : ℚ) := by
    intro k hk
    rw [Finset.mem_Icc] at hk
    have hk0 : (k : ℚ) ≠ 0 := by
      rw [Int.cast_ne_zero]
      omega
    rw [hA (i + k) j (by rw [abs_le]; omega) (by rw [abs_le]; omega),
      hA (i - k) j (by rw [abs_le]; omega) (by rw [abs_le]; omega),
      hA i (j + k) (by rw [abs_le]; omega) (by rw [abs_le]; omega),
      hA i (j - k) (by rw [abs_le]; omega) (by rw [abs_le]; omega)]
    push_cast
    field_simp
    ring
  rw [starSum, Finset.sum_congr rfl hstep, Finset.sum_const, Int.card_Icc, nsmul_eq_mul]
  have hc : ((r + 1 - 1).toNat : ℚ) = (r : ℚ) := by
    have h1 : ((r + 1 - 1).toNat : ℤ) = r := by
      rw [Int.toNat_of_nonneg (by omega)]
      ring
    exact_mod_cast h1
  rw [hc]
  field_simp

theorem gridSum_plane (r : ℤ) (hr : 1 ≤ r) (A : ℤ → ℤ → ℚ) (i j : ℤ) (c : ℚ)
    (hA : ∀ x y : ℤ, |x - i| ≤ r → |y - j| ≤ r → A x y = ((x + y : ℤ) : ℚ) + c) :
    gridSum r A i j = 2 := by
  have hr0 : (r : ℚ) ≠ 0 := by
    rw [Int.cast_ne_zero]
    omega
  have hstep : ∀ m ∈ Finset.Icc (1 : ℤ) r,
      ((∑ t ∈ Finset.Icc (-(m - 1)) (m - 1),
          (1 / (4 * (m : ℚ) * (2 * (m : ℚ) - 1) * (r : ℚ))) *
            (A (i + t) (j + m) - A (i + t) (j - m) +
             A (i + m) (j + t) - A (i - m) (j + t))) +
        (1 / (4 * (m : ℚ) * (r : ℚ))) * (A (i + m) (j + m) - A (i - m) (j - m)))
        = 2 / (r : ℚ) := by
    intro m hm
    rw [Finset.mem_Icc] at hm
    have hm0 : (m : ℚ) ≠ 0 := by
      rw [Int.cast_ne_zero]
      omega
    have hm1 : 2 * (m : ℚ) - 1 ≠ 0 := by
      have h1 : ((2 * m - 1 : ℤ) : ℚ) ≠ 0 := by
        rw [Int.cast_ne_zero]
        omega
      intro h
      apply h1
      push_cast
      linarith
    have hinner : ∀ t ∈ Finset.Icc (-(m - 1)) (m - 1),
        (1 / (4 * (m : ℚ) * (2 * (m : ℚ) - 1) * (r : ℚ))) *
          (A (i + t) (j + m) - A (i + t) (j - m) +
           A (i + m) (j + t) - A (i - m) (j + t))
          = (1 / (4 * (m : ℚ) * (2 * (m : ℚ) - 1) * (r : ℚ))) * (4 * (m : ℚ)) := by
      intro t ht
      rw [Finset.mem_Icc] at ht
      rw [hA (i + t) (j + m) (by rw [abs_le]; omega) (by rw [abs_le]; omega),
        hA (i + t) (j - m) (by rw [abs_le]; omega) (by rw [abs_le]; omega),
        hA (i + m) (j + t) (by rw [abs_le]; omega) (by rw [abs_le]; omega),
        hA (i - m) (j + t) (by rw [abs_le]; omega) (by rw [abs_le]; omega)]
      push_cast
      ring
    rw [Finset.sum_congr rfl hinner, Finset.sum_const, Int.card_Icc, nsmul_eq_mul,
      hA (i + m) (j + m) (by rw [abs_le]; omega) (by rw [abs_le]; omega),
      hA (i - m) (j - m) (by rw [abs_le]; omega) (by rw [abs_le]; omega)]
    have hcard : (((m - 1) + 1 - -(m - 1)).toNat : ℚ) = 2 * (m : ℚ) - 1 := by
      have h1 : (((m - 1) + 1 - -(m - 1)).toNat : ℤ) = 2 * m - 1 := by
        rw [Int.toNat_of_nonneg (by omega)]
        ring
      have h2 : (((m - 1) + 1 - -(m - 1)).toNat : ℚ) = ((2 * m - 1 : ℤ) : ℚ) := by
        exact_mod_cast h1
      rw [h2]
      push_cast
      ring
    rw [hcard]
    push_cast
    field_simp
    ring
  rw [gridSum, Finset.sum_congr rfl hstep, Finset.sum_const, Int.card_Icc, nsmul_eq_mul]
  have hc : ((r + 1 - 1).toNat : ℚ) = (r : ℚ) := by
    have h1 : ((r + 1 - 1).toNat : ℤ) = r := by
      rw [Int.toNat_of_nonneg (by omega)]
      ring
    exact_mod_cast h1
  rw [hc]
  field_simp

/-! ## Closed form of the stencil compute loop -/

/-- The stencil-apply step (whatever the branch) never modifies `A`. -/
theorem stencilStep_A (n r : ℤ) (star : Bool) (s : SState) :
    (stencilStep n r star s).A = (addPass n s).A := by
  unfold stencilStep
  by_cases h : 1 ≤ r ∧ r ≤ 9
  · rw [if_pos h]
    cases star <;> rfl
  · rw [if_neg h]

/-- `ParallelAdd` never modifies `B`. -/
theorem addPass_B (n : ℤ) (s : SState) : (addPass n s).B = s.B := rfl

/-- After `t` iterations, `A[i*n+j] = (i+j) + t` on the whole grid,
for every radius and shape. -/
theorem stencilState_A (n r : ℤ) (star : Bool) (t : Nat) (i j : ℤ)
    (hi0 : 0 ≤ i) (hin : i < n) (hj0 : 0 ≤ j) (hjn : j < n) :
    (stencilState n r star t).A i j = ((i + j : ℤ) : ℚ) + t := by
  induction t with
  | zero =>
    show (sInit n).A i j = _
    simp [sInit, hi0, hin, hj0, hjn]
  | succ t ih =>
    show (stencilStep n r star _).A i j = _
    rw [stencilStep_A]
    simp only [addPass]
    rw [if_pos ⟨hi0, hin, hj0, hjn⟩, ih]
    push_cast
    ring

/-- For a supported radius (`1 ≤ r ≤ 9`), after `t` iterations every
interior cell holds `B[i*n+j] = 2·t`, for either shape. -/
theorem stencilState_B_supported (n r : ℤ) (star : Bool) (hr1 : 1 ≤ r) (hr9 : r ≤ 9)
    (_hrn : 2 * r + 1 ≤ n) (t : Nat) (i j : ℤ)
    (hi : r ≤ i) (hin : i < n - r) (hj : r ≤ j) (hjn : j < n - r) :
    (stencilState n r star t).B i j = 2 * (t : ℚ) := by
  induction t with
  | zero =>
    show (sInit n).B i j = _
    simp [sInit]
  | succ t ih =>
    show (stencilStep n r star _).B i j = _
    unfold stencilStep
    rw [if_pos ⟨hr1, hr9⟩]
    have hplane : ∀ x y : ℤ, |x - i| ≤ r → |y - j| ≤ r →
        (stencilState n r star t).A x y = ((x + y : ℤ) : ℚ) + (t : ℚ) := by
      intro x y hx hy
      rw [abs_le] at hx hy
      exact stencilState_A n r star t x y (by omega) (by omega) (by omega) (by omega)
    cases star
    · rw [addPass_B, if_neg (by decide : ¬(false = true))]
      simp only [applyGrid]
      rw [if_pos ⟨hi, hin, hj, hjn⟩, ih,
        gridSum_plane r hr1 _ i j (t : ℚ) hplane]
      push_cast
      ring
    · rw [addPass_B, if_pos rfl]
      simp only [applyStar]
      rw [if_pos ⟨hi, hin, hj, hjn⟩, ih,
        starSum_plane r hr1 _ i j (t : ℚ) hplane]
      push_cast
      ring

/-- For an unsupported radius, the `switch` falls through to its
default and the whole iteration leaves `B` untouched. -/
theorem stencilStep_B_unsupported (n r : ℤ) (star : Bool) (s : SState)
    (hr : ¬(1 ≤ r ∧ r ≤ 9)) : (stencilStep n r star s).B = s.B := by
  unfold stencilStep
  rw [if_neg hr]
  rfl

/-- For an unsupported radius, `B` keeps its initial zeros forever. -/
theorem stencilState_B_unsupported (n r : ℤ) (star : Bool)
    (hr : ¬(1 ≤ r ∧ r ≤ 9)) (t : Nat) (i j : ℤ) :
    (stencilState n r star t).B i j = 0 := by
  induction t with
  | zero => rfl
  | succ t ih =>
    show (stencilStep n r star _).B i j = _
    rw [stencilStep_B_unsupported n r star _ hr]
    exact ih

/-! ## Stencil verifier and configuration facts -/

/-- For a supported radius the verifier's normalised L1 norm after
`iterations+1` loop iterations is exactly `2·(iterations+1)`. -/
theorem stencil_norm_supported (n r : ℤ) (star : Bool) (iterations : Nat)
    (hr1 : 1 ≤ r) (hr9 : r ≤ 9) (hrn : 2 * r + 1 ≤ n) :
    normQ n r (stencilState n r star (iterations + 1)).B =
      2 * ((iterations : ℚ) + 1) := by
  unfold normQ
  have hB : ∀ i ∈ Finset.Ico r (n - r), ∀ j ∈ Finset.Ico r (n - r),
      |(stencilState n r star (iterations + 1)).B i j| = 2 * ((iterations : ℚ) + 1) := by
    intro i hi j hj
    rw [Finset.mem_Ico] at hi hj
    rw [stencilState_B_supported n r star hr1 hr9 hrn (iterations + 1) i j
      hi.1 hi.2 hj.1 hj.2]
    rw [abs_of_nonneg (by positivity)]
    push_cast
    ring
  rw [Finset.sum_congr rfl (fun i hi => Finset.sum_congr rfl (fun j hj => hB i hi j hj))]
  simp only [Finset.sum_const, Int.card_Ico, nsmul_eq_mul]
  have hcast : ((n - r - r).toNat : ℚ) = ((n - 2 * r : ℤ) : ℚ) := by
    have h1 : ((n - r - r).toNat : ℤ) = n - 2 * r := by
      rw [Int.toNat_of_nonneg (by omega)]
      ring
    exact_mod_cast h1
  have hne : (n : ℚ) - 2 * (r : ℚ) ≠ 0 := by
    have h0 : ((n - 2 * r : ℤ) : ℚ) ≠ 0 := by
      rw [Int.cast_ne_zero]
      omega
    push_cast at h0
    exact h0
  rw [hcast]
  push_cast
  field_simp
  ring

/-- The stencil validator accepts whenever the resolved radius is at
least 1 and fits in the grid, whatever the tile and shape tokens. -/
theorem stencilConfig_ok (iterations n : ℤ) (tileArg : Option ℤ) (shapeArg : Option String)
    (radiusArg : Option ℤ) (hit : 1 ≤ iterations) (hn : 1 ≤ n) (hmax : n ≤ 46340)
    (hr1 : 1 ≤ radiusArg.getD 2) (hrn : 2 * radiusArg.getD 2 + 1 ≤ n) :
    stencilConfig iterations n tileArg shapeArg radiusArg =
      .ok ⟨iterations, n, stencilTile n tileArg, stencilStar shapeArg, radiusArg.getD 2⟩ := by
  unfold stencilConfig
  rw [if_neg (by omega), if_neg (by omega), if_neg (by omega), if_neg (by omega)]

/-! ## Claim theorems for the stencil program -/

/-- C2: for every valid stencil configuration (`iterations ≥ 1`,
`radius ∈ [1,9]`, `2·radius+1 ≤ order` within the overflow bound,
star or grid shape, any tile argument), after the loop runs
`iterations+1` times the sum of `|B[i,j]|` over the interior divided
by `(order-2·radius)²` equals `2·(iterations+1)` exactly (hence within
`1e-8`), and the program prints "Solution validates" and returns 0. -/
theorem stencil_solution_validates (iterations n radius : ℤ) (star : Bool) (tileArg : Option ℤ)
    (hit : 1 ≤ iterations) (hr1 : 1 ≤ radius) (hr9 : radius ≤ 9)
    (hrn : 2 * radius + 1 ≤ n) (hmax : n ≤ 46340) :
    normQ n radius (stencilState n radius star (iterations.toNat + 1)).B =
      2 * ((iterations : ℚ) + 1) ∧
    |normQ n radius (stencilState n radius star (iterations.toNat + 1)).B -
      2 * ((iterations : ℚ) + 1)| ≤ epsQ ∧
    stencilMain iterations n tileArg (some (if star then "star" else "grid")) (some radius) =
      (0, true, some (stencilState n radius star (iterations.toNat + 1))) := by
  have htoq : ((iterations.toNat : ℚ)) = (iterations : ℚ) := by
    have h1 : ((iterations.toNat : ℤ)) = iterations := Int.toNat_of_nonneg (by omega)
    exact_mod_cast h1
  have hnorm := stencil_norm_supported n radius star iterations.toNat hr1 hr9 hrn
  rw [htoq] at hnorm
  have hstar : stencilStar (some (if star then "star" else "grid")) = star := by
    cases star <;> simp [stencilStar]
  refine ⟨hnorm, ?_, ?_⟩
  · rw [hnorm, sub_self, abs_zero]
    norm_num [epsQ]
  · have hcfg := stencilConfig_ok iterations n tileArg
      (some (if star then "star" else "grid")) (some radius) hit (by omega) hmax
      (by simp only [Option.getD_some]; omega) (by simp only [Option.getD_some]; omega)
    rw [hstar] at hcfg
    unfold stencilMain
    rw [hcfg]
    simp only [stencilRun, Option.getD_some]
    rw [hnorm, sub_self, abs_zero]
    rw [if_neg (by norm_num [epsQ])]

/-- Witness for C2 at `iterations = 1`, `order = 3`, `radius = 1`,
star shape, tile argument omitted. -/
theorem stencil_solution_validates_witness :
    normQ 3 1 (stencilState 3 1 true ((1 : ℤ).toNat + 1)).B = 2 * (((1 : ℤ) : ℚ) + 1) ∧
    stencilMain 1 3 none (some (if true then "star" else "grid")) (some 1) =
      (0, true, some (stencilState 3 1 true ((1 : ℤ).toNat + 1))) := by
  have h := stencil_solution_validates 1 3 1 true none (by norm_num) (by norm_num)
    (by norm_num) (by norm_num) (by norm_num)
  exact ⟨h.1, h.2.2⟩

/-- C4: a resolved radius violating `1 ≤ radius` or `2·radius+1 ≤ order`
(with the earlier argument checks passing) makes the stencil
configuration fail with the radius error and exit code 1, before the
arrays are allocated or any compute iteration runs (the state
component of the result is `none`). -/
theorem stencil_invalid_radius_rejected (iterations n : ℤ) (tileArg : Option ℤ)
    (shapeArg : Option String) (radiusArg : Option ℤ)
    (hit : 1 ≤ iterations) (hn : 1 ≤ n) (hmax : n ≤ 46340)
    (hbad : radiusArg.getD 2 < 1 ∨ n < 2 * radiusArg.getD 2 + 1) :
    stencilConfig iterations n tileArg shapeArg radiusArg =
      .error "ERROR: Stencil radius negative or too large" ∧
    stencilMain iterations n tileArg shapeArg radiusArg = (1, false, none) := by
  have hcfg : stencilConfig iterations n tileArg shapeArg radiusArg =
      .error "ERROR: Stencil radius negative or too large" := by
    unfold stencilConfig
    rw [if_neg (by omega), if_neg (by omega), if_neg (by omega), if_pos hbad]
  refine ⟨hcfg, ?_⟩
  unfold stencilMain
  rw [hcfg]

/-- Witness for C4 at the spec's negative scenario: `iterations = 1`,
`order = 1`, default radius 2 (`2·2+1 > 1`). -/
theorem stencil_invalid_radius_rejected_witness :
    stencilConfig 1 1 none none none =
      .error "ERROR: Stencil radius negative or too large" ∧
    stencilMain 1 1 none none none = (1, false, none) :=
  stencil_invalid_radius_rejected 1 1 none none none (by norm_num) (by norm_num)
    (by norm_num) (by decide)

/-- C5: a radius ≥ 10 that passes configuration (`2·radius+1 ≤ order`)
does not abort the run: configuration succeeds, every iteration's
stencil-apply switch falls to its warning-only default and writes
nothing to `B` (which stays all zeros), while the full-array increment
of `A` still executes every iteration. -/
theorem stencil_unsupported_radius_skips (iterations n radius : ℤ) (star : Bool)
    (tileArg : Option ℤ) (hit : 1 ≤ iterations) (hr : 10 ≤ radius)
    (hrn : 2 * radius + 1 ≤ n) (hmax : n ≤ 46340) :
    stencilConfig iterations n tileArg (some (if star then "star" else "grid")) (some radius) =
      .ok ⟨iterations, n, stencilTile n tileArg, star, radius⟩ ∧
    (∀ s : SState, (stencilStep n radius star s).B = s.B) ∧
    (∀ t : Nat, ∀ i j : ℤ, (stencilState n radius star t).B i j = 0) ∧
    (∀ t : Nat, ∀ i j : ℤ, 0 ≤ i → i < n → 0 ≤ j → j < n →
      (stencilState n radius star t).A i j = ((i + j : ℤ) : ℚ) + (t : ℚ)) := by
  have hstar : stencilStar (some (if star then "star" else "grid")) = star := by
    cases star <;> simp [stencilStar]
  refine ⟨?_, ?_, ?_, ?_⟩
  · have hcfg := stencilConfig_ok iterations n tileArg
      (some (if star then "star" else "grid")) (some radius) hit (by omega) hmax
      (by simp only [Option.getD_some]; omega) (by simp only [Option.getD_some]; omega)
    rw [hstar] at hcfg
    exact hcfg
  · intro s
    exact stencilStep_B_unsupported n radius star s (by omega)
  · intro t i j
    exact stencilState_B_unsupported n radius star (by omega) t i j
  · intro t i j h1 h2 h3 h4
    exact stencilState_A n radius star t i j h1 h2 h3 h4

/-- Witness for C5 at `iterations = 1`, `order = 21`, `radius = 10`,
star shape. -/
theorem stencil_unsupported_radius_skips_witness :
    stencilConfig 1 21 none (some (if true then "star" else "grid")) (some 10) =
      .ok ⟨1, 21, stencilTile 21 none, true, 10⟩ ∧
    (stencilState 21 10 true 2).B 10 10 = 0 := by
  have h := stencil_unsupported_radius_skips 1 21 10 true none (by norm_num)
    (by norm_num) (by norm_num) (by norm_num)
  exact ⟨h.1, h.2.2.1 2 10 10⟩

/-- C8: for every grid size, radius and shape, after initialization
and `iterations+1` compute iterations every element of `A` satisfies
`A[i*n+j] = (i+j) + (iterations+1)`; the stencil-apply step never
modifies `A`, and each iteration's full-domain pass increments every
`A` element by exactly 1. -/
theorem stencil_A_closed_form (n r : ℤ) (star : Bool) (iterations : Nat) :
    (∀ i j : ℤ, 0 ≤ i → i < n → 0 ≤ j → j < n →
      (stencilState n r star (iterations + 1)).A i j =
        ((i + j : ℤ) : ℚ) + ((iterations + 1 : Nat) : ℚ)) ∧
    (∀ s : SState, (applyStar n r s).A = s.A ∧ (applyGrid n r s).A = s.A) ∧
    (∀ s : SState, ∀ i j : ℤ, 0 ≤ i → i < n → 0 ≤ j → j < n →
      (addPass n s).A i j = s.A i j + 1) := by
  refine ⟨?_, fun s => ⟨rfl, rfl⟩, ?_⟩
  · intro i j h1 h2 h3 h4
    exact stencilState_A n r star (iterations + 1) i j h1 h2 h3 h4
  · intro s i j h1 h2 h3 h4
    simp only [addPass]
    rw [if_pos ⟨h1, h2, h3, h4⟩]

/-- Witness for C8 at `n = 2`, `r = 1`, star, `iterations = 0`,
cell `(1, 0)`. -/
theorem stencil_A_closed_form_witness :
    (stencilState 2 1 true (0 + 1)).A 1 0 = ((1 + 0 : ℤ) : ℚ) + ((0 + 1 : Nat) : ℚ) :=
  (stencil_A_closed_form 2 1 true 0).1 1 0 (by norm_num) (by norm_num) (by norm_num)
    (by norm_num)

/-- C10: the shape token never causes a configuration failure, and any
fourth argument other than exactly `"grid"` silently selects the star
shape: the whole configuration result is the same as with `"star"`
(and as with no shape argument at all). -/
theorem stencil_shape_token_star (iterations n : ℤ) (tileArg : Option ℤ)
    (radiusArg : Option ℤ) (s : String) (hs : s ≠ "grid") :
    stencilStar (some s) = true ∧
    stencilConfig iterations n tileArg (some s) radiusArg =
      stencilConfig iterations n tileArg (some "star") radiusArg ∧
    stencilConfig iterations n tileArg (some s) radiusArg =
      stencilConfig iterations n tileArg none radiusArg := by
  have h1 : stencilStar (some s) = true := by simp [stencilStar, hs]
  have h2 : stencilStar (some "star") = true := by simp [stencilStar]
  have h3 : stencilStar none = true := rfl
  refine ⟨h1, ?_, ?_⟩
  · unfold stencilConfig
    rw [h1, h2]
  · unfold stencilConfig
    rw [h1, h3]

/-- Witness for C10 with the misspelt token `"Grid"`. -/
theorem stencil_shape_token_star_witness :
    stencilStar (some "Grid") = true ∧
    stencilConfig 1 10 none (some "Grid") none =
      stencilConfig 1 10 none (some "star") none ∧
    stencilConfig 1 10 none (some "Grid") none =
      stencilConfig 1 10 none none none :=
  stencil_shape_token_star 1 10 none none "Grid" (by decide)

/-- C7 counterexample: with the tile-size argument omitted and grid
order 10, the stencil program resolves the tile size to `32`, which is
not the order (and lies outside `[1, 10]`), refuting the claim that
both programs resolve an omitted tile size to the order. -/
theorem stencil_omitted_tile_not_order :
    stencilConfig 1 10 none none none = .ok ⟨1, 10, 32, true, 2⟩ ∧ (32 : ℤ) ≠ 10 :=
  ⟨rfl, by decide⟩

/-- C7 amended: an omitted tile size resolves to the order in the
transpose program but to `32` in the stencil program; a non-positive
transpose tile resolves to the order while any supplied transpose tile
`≥ 1` is kept as given (subject only to the divisibility check); the
stencil program clamps a supplied tile outside `[1, n]` to `n` and
keeps one inside `[1, n]`. -/
theorem tile_size_resolution_amended (iterations order n t : ℤ)
    (hit : 1 ≤ iterations) (hord : 1 ≤ order) (hmax : order ≤ maxMatrixSize) :
    transposeConfig iterations order none = .ok ⟨iterations, order, order⟩ ∧
    (t ≤ 0 → transposeConfig iterations order (some t) = .ok ⟨iterations, order, order⟩) ∧
    (1 ≤ t → ∀ cfg, transposeConfig iterations order (some t) = .ok cfg → cfg.tile = t) ∧
    stencilTile n none = 32 ∧
    ((t < 1 ∨ n < t) → stencilTile n (some t) = n) ∧
    (1 ≤ t → t ≤ n → stencilTile n (some t) = t) := by
  have hself : ¬(order < order ∧ order % order ≠ 0) := by
    rintro ⟨h, _⟩
    omega
  refine ⟨?_, ?_, ?_, rfl, ?_, ?_⟩
  · unfold transposeConfig
    rw [if_neg (by omega), if_neg (by omega), if_neg (by omega)]
    simp only [Option.getD_none, ite_self]
    rw [if_neg hself]
  · intro ht0
    unfold transposeConfig
    rw [if_neg (by omega), if_neg (by omega), if_neg (by omega)]
    simp only [Option.getD_some]
    rw [if_pos ht0, if_neg hself]
  · intro ht1 cfg hcfg
    unfold transposeConfig at hcfg
    rw [if_neg (by omega), if_neg (by omega), if_neg (by omega)] at hcfg
    simp only [Option.getD_some] at hcfg
    rw [if_neg (show ¬t ≤ 0 by omega)] at hcfg
    by_cases hdc : t < order ∧ order % t ≠ 0
    · rw [if_pos hdc] at hcfg
      cases hcfg
    · rw [if_neg hdc] at hcfg
      cases hcfg
      rfl
  · intro h
    simp only [stencilTile]
    rw [if_pos h]
  · intro h1 h2
    simp only [stencilTile]
    rw [if_neg (by omega)]

/-- Witness for the amended C7 at `order = 4`, `n = 10`, `t = 5`. -/
theorem tile_size_resolution_amended_witness :
    stencilTile 10 none = 32 ∧ transposeConfig 1 4 none = .ok ⟨1, 4, 4⟩ := by
  have h := tile_size_resolution_amended 1 4 10 5 (by norm_num) (by norm_num)
    (by norm_num [maxMatrixSize])
  exact ⟨h.2.2.2.1, h.1⟩
